import Mathlib

/-!
Verification of the pawian-tools ASCII momentum-tuple codec and kinematic
schema layer.  The Python implementation (pawian.data) is modelled from the
specification: tokens are abstracted as exact rationals (a lexed numeric
token) or junk (an unparseable token), lines are token lists, and the parser,
serializer and accessors are given as executable Lean functions.
-/

/-- Modelled from the spec: a whitespace-separated token of an ASCII
momentum-tuple file, either a numeric token (held exactly as a rational)
or a token that fails to parse as a number. -/
inductive Token where
  | num (q : ℚ)
  | junk
deriving DecidableEq

/-- A line of the ASCII file, as its list of whitespace-separated tokens.
A blank line is the empty list. -/
abbrev Line := List Token

/-- Modelled from the spec: one particle record, four numeric values
(energy E and momentum components px, py, pz). -/
structure FourMomentum where
  e : ℚ
  px : ℚ
  py : ℚ
  pz : ℚ
deriving DecidableEq

/-- Modelled from the spec: one event, an optional scalar weight followed
by one particle record per particle. -/
structure Event where
  weight : Option ℚ
  particles : List FourMomentum
deriving DecidableEq

/-- Modelled from the spec: the in-memory Table produced by pawian.data.read_ascii,
with the caller-supplied particle names, the weighted flag, and the ordered
sequence of events (rows). -/
structure Table where
  particle_names : List String
  weighted : Bool
  events : List Event
deriving DecidableEq

/-- Modelled from the spec: the error taxonomy of section 7: schema-mismatch,
malformed-record (with offending line number), malformed-number (with line
number), truncated-file, unknown-particle. -/
inductive ParseError where
  | schemaMismatch
  | malformedRecord (lineNo : Nat)
  | malformedNumber (lineNo : Nat)
  | truncatedFile
  | unknownParticle (name : String)
deriving DecidableEq

/-- Modelled from the spec: parse one particle-record line: exactly 4 numeric
tokens, otherwise malformed-record (wrong token count, reported with the line
number) or malformed-number (4 tokens, one not numeric). -/
def parseRecord (lineNo : Nat) (l : Line) : Except ParseError FourMomentum :=
  if l.length = 4 then
    match l with
    | [Token.num e, Token.num px, Token.num py, Token.num pz] =>
        .ok ⟨e, px, py, pz⟩
    | _ => .error (.malformedNumber lineNo)
  else .error (.malformedRecord lineNo)

/-- Modelled from the spec: parse one weight line: exactly one numeric token. -/
def parseWeight (lineNo : Nat) (l : Line) : Except ParseError ℚ :=
  if l.length = 1 then
    match l with
    | [Token.num w] => .ok w
    | _ => .error (.malformedNumber lineNo)
  else .error (.malformedRecord lineNo)

/-- Consume exactly n particle-record lines, returning the records and the
remaining lines; end of input mid-event is a truncated-file error. -/
def takeParticles : Nat → List (Nat × Line) →
    Except ParseError (List FourMomentum × List (Nat × Line))
  | 0, rest => .ok ([], rest)
  | _ + 1, [] => .error .truncatedFile
  | n + 1, (i, l) :: rest =>
    match parseRecord i l with
    | .error e => .error e
    | .ok fm =>
      match takeParticles n rest with
      | .error e => .error e
      | .ok (fms, rem) => .ok (fm :: fms, rem)

/-- Modelled from the spec: the core parse loop.  For each event, optionally
consume one scalar weight line, then consume exactly P particle lines.  The
fuel argument (instantiated with the number of lines) only forces structural
termination; each event consumes at least one line, so fuel never runs out
on the calls the library makes. -/
def scanEvents (weighted : Bool) (P : Nat) :
    Nat → List (Nat × Line) → Except ParseError (List Event)
  | _, [] => .ok []
  | 0, _ :: _ => .error .truncatedFile
  | fuel + 1, (i, l) :: rest =>
    match weighted with
    | true =>
      match parseWeight i l with
      | .error e => .error e
      | .ok w =>
        match takeParticles P rest with
        | .error e => .error e
        | .ok (fms, rem) =>
          match scanEvents weighted P fuel rem with
          | .error e => .error e
          | .ok evs => .ok (⟨some w, fms⟩ :: evs)
    | false =>
      match takeParticles P ((i, l) :: rest) with
      | .error e => .error e
      | .ok (fms, rem) =>
        match scanEvents weighted P fuel rem with
        | .error e => .error e
        | .ok evs => .ok (⟨none, fms⟩ :: evs)

/-- Number the lines of the file by position (0-based) and drop blank lines;
blank lines separate nothing and carry no data. -/
def numberLines (n : Nat) : List Line → List (Nat × Line)
  | [] => []
  | l :: rest =>
    if l.isEmpty then numberLines (n + 1) rest
    else (n, l) :: numberLines (n + 1) rest

/-- Modelled from the spec: weight auto-detection of pawian.data: read the first
non-blank line; exactly one numeric token means the file is weighted, four
tokens mean it is unweighted. -/
def has_weights (lines : List Line) : Except ParseError Bool :=
  match numberLines 0 lines with
  | [] => .ok false
  | (i, l) :: _ =>
    if l.length = 1 then
      match l with
      | [Token.num _] => .ok true
      | _ => .error (.malformedNumber i)
    else if l.length = 4 then .ok false
    else .error (.malformedRecord i)

/-- Run the parse loop over the numbered non-blank lines. -/
def parse_events (weighted : Bool) (P : Nat) (nl : List (Nat × Line)) :
    Except ParseError (List Event) :=
  scanEvents weighted P nl.length nl

/-- Resolve the weighted flag: the caller-supplied flag when given,
auto-detection otherwise. -/
def resolveWeighted (lines : List Line) : Option Bool → Except ParseError Bool
  | some b => .ok b
  | none => has_weights lines

/-- Modelled from the spec: pawian.data.read_ascii: given the file content, the
ordered particle-name list and an optional weighted flag (auto-detected when
absent), produce the Table or fail with a structural error. -/
def read_ascii (lines : List Line) (particles : List String)
    (weighted : Option Bool) : Except ParseError Table :=
  if particles.isEmpty then .error .schemaMismatch
  else
    match resolveWeighted lines weighted with
    | .error e => .error e
    | .ok w =>
      match parse_events w particles.length (numberLines 0 lines) with
      | .error e => .error e
      | .ok evs => .ok ⟨particles, w, evs⟩

/-- Serialize one particle record as one line of four numeric tokens. -/
def serLine (p : FourMomentum) : Line :=
  [Token.num p.e, Token.num p.px, Token.num p.py, Token.num p.pz]

/-- Serialize one event: its weight alone on its own line first (when
present), then one line per particle record. -/
def serializeEvent (ev : Event) : List Line :=
  (match ev.weight with
   | some w => [[Token.num w]]
   | none => []) ++ ev.particles.map serLine

/-- Modelled from the spec: the write_ascii accessor: emit every event in row
order. -/
def write_ascii (t : Table) : List Line :=
  (t.events.map serializeEvent).flatten

/-- Keep only the rows satisfying a predicate (a pandas row selection),
leaving the column schema untouched. -/
def filterEvents (t : Table) (pred : Event → Bool) : Table :=
  ⟨t.particle_names, t.weighted, t.events.filter pred⟩

/-- Index of a particle name in the particle-name list. -/
def findIndex (name : String) : List String → Option Nat
  | [] => none
  | n :: rest => if n = name then some 0 else (findIndex name rest).map (· + 1)

/-- Modelled from the spec: select_particle: the per-row 4-vector column group of
one named particle; unknown names fail with an unknown-particle error. -/
def select_particle (t : Table) (name : String) :
    Except ParseError (List FourMomentum) :=
  match findIndex name t.particle_names with
  | none => .error (.unknownParticle name)
  | some i => .ok (t.events.map (fun ev => ev.particles.getD i ⟨0, 0, 0, 0⟩))

/-- The data held by one top-level column group: the scalar weight column or
a particle's 4-vector group. -/
inductive ColumnData where
  | scalars (vals : List ℚ)
  | vectors (vals : List FourMomentum)
deriving DecidableEq

/-- Modelled from the spec: top-level column access on the frame: the string
"weight" addresses the per-event weight column (one scalar per row) of a
weighted table; every particle name addresses its 4-vector column group. -/
def getColumn (t : Table) (name : String) : Except ParseError ColumnData :=
  if name = "weight" then
    if t.weighted then
      .ok (.scalars (t.events.map (fun ev => ev.weight.getD 0)))
    else .error (.unknownParticle name)
  else
    match select_particle t name with
    | .error e => .error e
    | .ok col => .ok (.vectors col)

/-- Modelled from the spec: the clamped mass-squared radicand
max 0 (E^2 - px^2 - py^2 - pz^2) of a 4-vector. -/
def mass_sq (p : FourMomentum) : ℚ :=
  max 0 (p.e ^ 2 - p.px ^ 2 - p.py ^ 2 - p.pz ^ 2)

/-- Modelled from the spec: invariant mass sqrt (max 0 (E^2 - |p|^2)); the
negative radicand is clamped to zero rather than raising. -/
noncomputable def invariant_mass (p : FourMomentum) : ℝ :=
  Real.sqrt ((mass_sq p : ℚ) : ℝ)

/-- Invariant mass of every row of a 4-vector-valued selection. -/
noncomputable def invariant_mass_column (sel : List FourMomentum) : List ℝ :=
  sel.map invariant_mass

/-- Modelled from the spec: the mass accessor as a state-passing computation:
it returns the derived column and the table it leaves behind, never mutating
the raw columns. -/
noncomputable def mass_column_st (t : Table) (name : String) :
    Except ParseError (List ℝ) × Table :=
  ((select_particle t name).map (fun col => col.map invariant_mass), t)

/-- Number of numeric fields in one row: its optional weight plus four per
particle record. -/
def Event.fieldCount (ev : Event) : Nat :=
  (if ev.weight.isSome then 1 else 0) + 4 * ev.particles.length

/-- The weight-column flag exposed by the accessor. -/
def Table.has_weight_column (t : Table) : Bool := t.weighted

deriving instance DecidableEq for Except

theorem parseRecord_serLine (i : Nat) (p : FourMomentum) :
    parseRecord i (serLine p) = .ok p := rfl

theorem parseWeight_num (i : Nat) (q : ℚ) :
    parseWeight i [Token.num q] = .ok q := rfl

theorem parseRecord_len_ne (i : Nat) (l : Line) (h : l.length ≠ 4) :
    parseRecord i l = .error (.malformedRecord i) := by
  simp [parseRecord, h]

theorem takeParticles_ok (n : Nat) (l : List (Nat × Line))
    (fms : List FourMomentum) (rem : List (Nat × Line))
    (h : takeParticles n l = .ok (fms, rem)) :
    fms.length = n ∧ rem.length + n = l.length := by
  induction n generalizing l fms rem with
  | zero =>
    simp only [takeParticles, Except.ok.injEq, Prod.mk.injEq] at h
    obtain ⟨h1, h2⟩ := h
    subst h1; subst h2; simp
  | succ m ih =>
    cases l with
    | nil => simp [takeParticles] at h
    | cons p rest =>
      obtain ⟨i, ln⟩ := p
      simp only [takeParticles] at h
      cases hr : parseRecord i ln with
      | error e => simp [hr] at h
      | ok fm =>
        cases ht : takeParticles m rest with
        | error e => simp [hr, ht] at h
        | ok pr2 =>
          obtain ⟨fms2, rem2⟩ := pr2
          simp only [hr, ht, Except.ok.injEq, Prod.mk.injEq] at h
          obtain ⟨h1, h2⟩ := h
          subst h1; subst h2
          have h3 := ih rest fms2 rem2 ht
          simp only [List.length_cons]
          omega

theorem scanEvents_wf (w : Bool) (P : Nat) (fuel : Nat) :
    ∀ (nl : List (Nat × Line)) (evs : List Event),
      scanEvents w P fuel nl = .ok evs →
      ∀ ev ∈ evs, ev.weight.isSome = w ∧ ev.particles.length = P := by
  induction fuel with
  | zero =>
    intro nl evs h
    cases nl with
    | nil =>
      simp only [scanEvents, Except.ok.injEq] at h
      subst h; simp
    | cons x rest => simp [scanEvents] at h
  | succ f ih =>
    intro nl evs h
    cases nl with
    | nil =>
      simp only [scanEvents, Except.ok.injEq] at h
      subst h; simp
    | cons x rest =>
      obtain ⟨i, ln⟩ := x
      cases w with
      | true =>
        simp only [scanEvents] at h
        cases hpw : parseWeight i ln with
        | error e => simp [hpw] at h
        | ok q =>
          cases htp : takeParticles P rest with
          | error e => simp [hpw, htp] at h
          | ok pr =>
            obtain ⟨fms, rem⟩ := pr
            cases hsc : scanEvents true P f rem with
            | error e => simp [hpw, htp, hsc] at h
            | ok evs' =>
              simp only [hpw, htp, hsc, Except.ok.injEq] at h
              subst h
              intro ev hev
              rcases List.mem_cons.mp hev with rfl | hmem
              · exact ⟨rfl, (takeParticles_ok P rest fms rem htp).1⟩
              · exact ih rem evs' hsc ev hmem
      | false =>
        simp only [scanEvents] at h
        cases htp : takeParticles P ((i, ln) :: rest) with
        | error e => simp [htp] at h
        | ok pr =>
          obtain ⟨fms, rem⟩ := pr
          cases hsc : scanEvents false P f rem with
          | error e => simp [htp, hsc] at h
          | ok evs' =>
            simp only [htp, hsc, Except.ok.injEq] at h
            subst h
            intro ev hev
            rcases List.mem_cons.mp hev with rfl | hmem
            · exact ⟨rfl, (takeParticles_ok P ((i, ln) :: rest) fms rem htp).1⟩
            · exact ih rem evs' hsc ev hmem

theorem scanEvents_fuel (w : Bool) (P : Nat) (hP : 0 < P) :
    ∀ (f1 f2 : Nat) (nl : List (Nat × Line)), nl.length ≤ f1 → nl.length ≤ f2 →
      scanEvents w P f1 nl = scanEvents w P f2 nl := by
  intro f1
  induction f1 with
  | zero =>
    intro f2 nl h1 h2
    cases nl with
    | nil => cases f2 <;> rfl
    | cons x rest => exact absurd h1 (by simp)
  | succ a ih =>
    intro f2 nl h1 h2
    cases nl with
    | nil => cases f2 <;> rfl
    | cons x rest =>
      obtain ⟨i, ln⟩ := x
      cases f2 with
      | zero => exact absurd h2 (by simp)
      | succ b =>
        cases w with
        | true =>
          simp only [scanEvents]
          cases hpw : parseWeight i ln with
          | error e => simp [hpw]
          | ok q =>
            cases htp : takeParticles P rest with
            | error e => simp [hpw, htp]
            | ok pr =>
              obtain ⟨fms, rem⟩ := pr
              have hlen := (takeParticles_ok P rest fms rem htp).2
              have hra : rem.length ≤ a := by
                simp only [List.length_cons] at h1; omega
              have hrb : rem.length ≤ b := by
                simp only [List.length_cons] at h2; omega
              simp [hpw, htp, ih b rem hra hrb]
        | false =>
          simp only [scanEvents]
          cases htp : takeParticles P ((i, ln) :: rest) with
          | error e => simp [htp]
          | ok pr =>
            obtain ⟨fms, rem⟩ := pr
            have hlen := (takeParticles_ok P ((i, ln) :: rest) fms rem htp).2
            have hra : rem.length ≤ a := by
              simp only [List.length_cons] at h1 hlen; omega
            have hrb : rem.length ≤ b := by
              simp only [List.length_cons] at h2 hlen; omega
            simp [htp, ih b rem hra hrb]

theorem map_snd_split (A B : List Line) :
    ∀ (nl : List (Nat × Line)), nl.map Prod.snd = A ++ B →
      ∃ n1 n2, nl = n1 ++ n2 ∧ n1.map Prod.snd = A ∧ n2.map Prod.snd = B := by
  induction A with
  | nil =>
    intro nl h
    exact ⟨[], nl, by simp, by simp, by simpa using h⟩
  | cons l A' ih =>
    intro nl h
    cases nl with
    | nil => simp at h
    | cons x nl' =>
      obtain ⟨i, ln⟩ := x
      simp only [List.map_cons, List.cons_append, List.cons.injEq] at h
      obtain ⟨h1, h2⟩ := h
      obtain ⟨n1, n2, hsplit, hs1, hs2⟩ := ih nl' h2
      exact ⟨(i, ln) :: n1, n2, by simp [hsplit], by simp [hs1, h1], hs2⟩

theorem takeParticles_ser (ps : List FourMomentum) :
    ∀ (nl rest : List (Nat × Line)), nl.map Prod.snd = ps.map serLine →
      takeParticles ps.length (nl ++ rest) = .ok (ps, rest) := by
  induction ps with
  | nil =>
    intro nl rest h
    simp only [List.map_nil, List.map_eq_nil_iff] at h
    subst h
    rfl
  | cons p ps' ih =>
    intro nl rest h
    cases nl with
    | nil => simp at h
    | cons x nl' =>
      obtain ⟨i, ln⟩ := x
      simp only [List.map_cons, List.cons.injEq] at h
      obtain ⟨h1, h2⟩ := h
      subst h1
      simp only [List.length_cons, List.cons_append, takeParticles,
        parseRecord_serLine, List.append_eq, ih nl' rest h2]

theorem takeParticles_trunc (nl : List (Nat × Line)) :
    ∀ (n : Nat), (∀ x ∈ nl, ∃ p, x.2 = serLine p) → nl.length < n →
      takeParticles n nl = .error .truncatedFile := by
  induction nl with
  | nil =>
    intro n _ hn
    cases n with
    | zero => omega
    | succ m => rfl
  | cons x nl' ih =>
    intro n hser hn
    obtain ⟨i, ln⟩ := x
    cases n with
    | zero => omega
    | succ m =>
      obtain ⟨p, hp⟩ := hser (i, ln) (by simp)
      simp only at hp
      subst hp
      simp only [takeParticles, parseRecord_serLine,
        ih m (fun x hx => hser x (by simp [hx])) (by simpa using hn)]

theorem takeParticles_bad (ps : List FourMomentum) :
    ∀ (nl : List (Nat × Line)) (i : Nat) (bad : Line) (rest : List (Nat × Line))
      (n : Nat), nl.map Prod.snd = ps.map serLine → bad.length ≠ 4 →
      ps.length < n →
      takeParticles n (nl ++ (i, bad) :: rest) = .error (.malformedRecord i) := by
  induction ps with
  | nil =>
    intro nl i bad rest n hsnd hbad hn
    simp only [List.map_nil, List.map_eq_nil_iff] at hsnd
    subst hsnd
    cases n with
    | zero => omega
    | succ m => simp [takeParticles, parseRecord_len_ne i bad hbad]
  | cons p ps' ih =>
    intro nl i bad rest n hsnd hbad hn
    cases nl with
    | nil => simp at hsnd
    | cons x nl' =>
      obtain ⟨j, ln⟩ := x
      simp only [List.map_cons, List.cons.injEq] at hsnd
      obtain ⟨h1, h2⟩ := hsnd
      subst h1
      cases n with
      | zero => omega
      | succ m =>
        simp only [List.cons_append, takeParticles, parseRecord_serLine,
          List.append_eq, ih nl' i bad rest m h2 hbad (by simpa using hn)]

theorem serLine_ne_nil (p : FourMomentum) : serLine p ≠ [] := by
  simp [serLine]

theorem mem_serializeEvent_ne_nil (ev : Event) :
    ∀ l ∈ serializeEvent ev, l ≠ [] := by
  intro l hl
  simp only [serializeEvent, List.mem_append] at hl
  rcases hl with hl | hl
  · cases hw : ev.weight with
    | none => simp [hw] at hl
    | some q =>
      simp only [hw, List.mem_singleton] at hl
      subst hl
      simp
  · obtain ⟨p, _, hp⟩ := List.mem_map.mp hl
    subst hp
    exact serLine_ne_nil p

theorem mem_flatten_ser_ne_nil (evs : List Event) :
    ∀ l ∈ (evs.map serializeEvent).flatten, l ≠ [] := by
  intro l hl
  obtain ⟨L, hL, hlL⟩ := List.mem_flatten.mp hl
  obtain ⟨ev, _, hev⟩ := List.mem_map.mp hL
  subst hev
  exact mem_serializeEvent_ne_nil ev l hlL

theorem numberLines_snd (lines : List Line) :
    ∀ (n : Nat), (∀ l ∈ lines, l ≠ []) →
      (numberLines n lines).map Prod.snd = lines := by
  induction lines with
  | nil => intro n _; rfl
  | cons l rest ih =>
    intro n h
    cases l with
    | nil => exact absurd rfl (h [] (by simp))
    | cons tk tks =>
      simp only [numberLines, List.isEmpty_cons, if_neg Bool.false_ne_true,
        List.map_cons]
      exact congrArg _ (ih (n + 1) (fun l hl => h l (by simp [hl])))

theorem numberLines_append (A B : List Line) :
    ∀ (n : Nat), numberLines n (A ++ B) =
      numberLines n A ++ numberLines (n + A.length) B := by
  induction A with
  | nil => intro n; simp [numberLines]
  | cons l A' ih =>
    intro n
    by_cases hl : l.isEmpty
    · simp only [List.cons_append, numberLines, if_pos hl, List.length_cons,
        List.append_eq]
      rw [ih (n + 1)]
      have h2 : n + 1 + A'.length = n + (A'.length + 1) := by omega
      rw [h2]
    · simp only [List.cons_append, numberLines, if_neg hl, List.length_cons,
        List.append_eq]
      rw [ih (n + 1)]
      have h2 : n + 1 + A'.length = n + (A'.length + 1) := by omega
      rw [h2]

/-- Well-formedness of a list of events for a flag and particle count: every
event carries a weight exactly when the flag says so and has exactly P
particle records. -/
def WFevs (w : Bool) (P : Nat) (evs : List Event) : Prop :=
  ∀ ev ∈ evs, ev.weight.isSome = w ∧ ev.particles.length = P

theorem scanEvents_ser_append (w : Bool) (P : Nat) (hP : 0 < P)
    (evs : List Event) :
    ∀ (n1 n2 : List (Nat × Line)) (fuel : Nat), WFevs w P evs →
      n1.map Prod.snd = (evs.map serializeEvent).flatten →
      n1.length + n2.length ≤ fuel →
      scanEvents w P fuel (n1 ++ n2) =
        (scanEvents w P n2.length n2).map (evs ++ ·) := by
  induction evs with
  | nil =>
    intro n1 n2 fuel _ hsnd hfuel
    simp only [List.map_nil, List.flatten_nil, List.map_eq_nil_iff] at hsnd
    subst hsnd
    simp only [List.nil_append, List.length_nil, Nat.zero_add] at hfuel ⊢
    rw [scanEvents_fuel w P hP fuel n2.length n2 hfuel le_rfl]
    cases scanEvents w P n2.length n2 <;> simp [Except.map]
  | cons ev evs' ih =>
    intro n1 n2 fuel hwf hsnd hfuel
    have hwev := hwf ev (by simp)
    have hwf' : WFevs w P evs' := fun e he => hwf e (by simp [he])
    simp only [List.map_cons, List.flatten_cons] at hsnd
    obtain ⟨a, b, hab, hsa, hsb⟩ :=
      map_snd_split (serializeEvent ev) ((evs'.map serializeEvent).flatten) n1 hsnd
    subst hab
    cases w with
    | true =>
      obtain ⟨q, hq⟩ := Option.isSome_iff_exists.mp hwev.1
      cases a with
      | nil => simp [serializeEvent, hq] at hsa
      | cons x a' =>
        obtain ⟨i, ln⟩ := x
        simp only [serializeEvent, hq, List.singleton_append, List.map_cons,
          List.cons.injEq] at hsa
        obtain ⟨hln, hsa'⟩ := hsa
        subst hln
        cases fuel with
        | zero =>
          simp only [List.length_append, List.length_cons] at hfuel
          omega
        | succ f =>
          have htp : takeParticles P (a' ++ (b ++ n2)) =
              .ok (ev.particles, b ++ n2) := by
            rw [← hwev.2]
            exact takeParticles_ser ev.particles a' (b ++ n2) hsa'
          have hrec := ih b n2 f hwf' hsb (by
            simp only [List.length_append, List.length_cons] at hfuel ⊢
            omega)
          simp only [List.cons_append, List.append_assoc, List.append_eq,
            scanEvents, parseWeight_num]
          simp only [htp, hrec]
          cases scanEvents true P n2.length n2 with
          | error e => simp [Except.map]
          | ok z =>
            simp only [Except.map, List.cons_append, Except.ok.injEq]
            rw [← hq]
    | false =>
      have hnone : ev.weight = none := by
        cases hw : ev.weight with
        | none => rfl
        | some q =>
          have := hwev.1
          rw [hw] at this
          simp at this
      have hser : a.map Prod.snd = ev.particles.map serLine := by
        simpa [serializeEvent, hnone] using hsa
      cases hps : ev.particles with
      | nil =>
        have h2 := hwev.2
        rw [hps] at h2
        simp at h2
        omega
      | cons p ps' =>
        cases a with
        | nil => rw [hps] at hser; simp at hser
        | cons x a' =>
          obtain ⟨i, ln⟩ := x
          rw [hps] at hser
          simp only [List.map_cons, List.cons.injEq] at hser
          obtain ⟨hln, hsa'⟩ := hser
          subst hln
          cases fuel with
          | zero =>
            simp only [List.length_append, List.length_cons] at hfuel
            omega
          | succ f =>
            have htp : takeParticles P ((i, serLine p) :: (a' ++ (b ++ n2))) =
                .ok (ev.particles, b ++ n2) := by
              have h3 := takeParticles_ser ev.particles ((i, serLine p) :: a')
                (b ++ n2) (by rw [hps]; simp [hsa'])
              rw [← hwev.2]
              simpa using h3
            have hrec := ih b n2 f hwf' hsb (by
              simp only [List.length_append, List.length_cons] at hfuel ⊢
              omega)
            simp only [List.cons_append, List.append_assoc, List.append_eq,
              scanEvents]
            simp only [htp, hrec]
            cases scanEvents false P n2.length n2 with
            | error e => simp [Except.map]
            | ok z =>
              simp only [Except.map, List.cons_append, Except.ok.injEq]
              rw [← hnone]

theorem scanEvents_ser (w : Bool) (P : Nat) (hP : 0 < P) (evs : List Event)
    (nl : List (Nat × Line)) (fuel : Nat) (hwf : WFevs w P evs)
    (hsnd : nl.map Prod.snd = (evs.map serializeEvent).flatten)
    (hfuel : nl.length ≤ fuel) :
    scanEvents w P fuel nl = .ok evs := by
  have h := scanEvents_ser_append w P hP evs nl [] fuel hwf hsnd
    (by simpa using hfuel)
  simpa [scanEvents, Except.map] using h

theorem read_ascii_ok (lines : List Line) (particles : List String)
    (wopt : Option Bool) (t : Table)
    (h : read_ascii lines particles wopt = .ok t) :
    particles ≠ [] ∧ t.particle_names = particles ∧
    resolveWeighted lines wopt = .ok t.weighted ∧
    parse_events t.weighted particles.length (numberLines 0 lines) =
      .ok t.events := by
  unfold read_ascii at h
  by_cases hp : particles.isEmpty
  · rw [if_pos hp] at h
    simp at h
  · rw [if_neg hp] at h
    cases hw : resolveWeighted lines wopt with
    | error e => simp [hw] at h
    | ok w =>
      simp only [hw] at h
      cases hpe : parse_events w particles.length (numberLines 0 lines) with
      | error e => simp [hpe] at h
      | ok evs =>
        simp only [hpe, Except.ok.injEq] at h
        subst h
        refine ⟨fun hc => hp (by simp [hc]), rfl, ?_, ?_⟩
        · simp [hw]
        · simpa using hpe

theorem has_weights_weighted (q : ℚ) (xs : List Line) :
    has_weights ([Token.num q] :: xs) = .ok true := rfl

theorem has_weights_record (p : FourMomentum) (xs : List Line) :
    has_weights (serLine p :: xs) = .ok false := rfl

theorem read_ascii_write (t : Table) (hp : t.particle_names ≠ [])
    (hwf : WFevs t.weighted t.particle_names.length t.events) :
    ∃ w', read_ascii (write_ascii t) t.particle_names none =
        .ok ⟨t.particle_names, w', t.events⟩ ∧
      (t.events ≠ [] ∨ t.weighted = false → w' = t.weighted) := by
  have hP : 0 < t.particle_names.length := List.length_pos.mpr hp
  have hpe : ¬t.particle_names.isEmpty = true := by
    simpa [List.isEmpty_iff] using hp
  cases hevs : t.events with
  | nil =>
    refine ⟨false, ?_, by
      intro hc
      rcases hc with hc | hc
      · exact absurd rfl hc
      · exact hc.symm⟩
    simp [read_ascii, write_ascii, hevs, resolveWeighted, has_weights,
      numberLines, parse_events, scanEvents, hpe]
  | cons ev evs' =>
    refine ⟨t.weighted, ?_, fun _ => rfl⟩
    have hwev := hwf ev (by simp [hevs])
    have hnonblank := mem_flatten_ser_ne_nil t.events
    have hsnd : (numberLines 0 (write_ascii t)).map Prod.snd = write_ascii t :=
      numberLines_snd (write_ascii t) 0 hnonblank
    have hdet : has_weights (write_ascii t) = .ok t.weighted := by
      cases hw : t.weighted with
      | true =>
        obtain ⟨q, hq⟩ := Option.isSome_iff_exists.mp (hw ▸ hwev.1)
        have hwrite : write_ascii t =
            [Token.num q] ::
              (ev.particles.map serLine ++
                (evs'.map serializeEvent).flatten) := by
          simp [write_ascii, hevs, serializeEvent, hq]
        rw [hwrite, has_weights_weighted]
      | false =>
        have hnone : ev.weight = none := by
          cases hwe : ev.weight with
          | none => rfl
          | some q =>
            have h1 := hwev.1
            rw [hwe, hw] at h1
            simp at h1
        cases hps : ev.particles with
        | nil =>
          have h2 := hwev.2
          rw [hps] at h2
          simp at h2
          omega
        | cons p ps' =>
          have hwrite : write_ascii t =
              serLine p ::
                (ps'.map serLine ++ (evs'.map serializeEvent).flatten) := by
            simp [write_ascii, hevs, serializeEvent, hnone, hps]
          rw [hwrite, has_weights_record]
    have hparse : parse_events t.weighted t.particle_names.length
        (numberLines 0 (write_ascii t)) = .ok t.events := by
      apply scanEvents_ser t.weighted t.particle_names.length hP t.events _ _
        hwf (by rw [hsnd]; rfl) le_rfl
    rw [← hevs]
    unfold read_ascii
    rw [if_neg hpe]
    simp only [resolveWeighted, hdet, hparse]

theorem mem_ser_lines (nlps : List (Nat × Line)) (ps : List FourMomentum)
    (hsnd : nlps.map Prod.snd = ps.map serLine) :
    ∀ x ∈ nlps, ∃ p, x.2 = serLine p := by
  intro x hx
  have hmem : x.2 ∈ nlps.map Prod.snd := List.mem_map_of_mem Prod.snd hx
  rw [hsnd] at hmem
  obtain ⟨p, _, hp⟩ := List.mem_map.mp hmem
  exact ⟨p, hp.symm⟩

theorem ser_lines_length (nlps : List (Nat × Line)) (ps : List FourMomentum)
    (hsnd : nlps.map Prod.snd = ps.map serLine) :
    nlps.length = ps.length := by
  have h := congrArg List.length hsnd
  simpa using h

theorem scanEvents_hits_bad (w : Bool) (P : Nat) (j : Nat)
    (nlps : List (Nat × Line)) (ps : List FourMomentum) (q : ℚ)
    (i : Nat) (bad : Line) (rest' : List (Nat × Line)) (fuel : Nat)
    (hsnd : nlps.map Prod.snd = ps.map serLine)
    (hlen : ps.length < P) (hbad : bad.length ≠ 4)
    (hfuel : 0 < fuel) :
    scanEvents w P fuel
      ((if w then [(j, [Token.num q])] else []) ++
        (nlps ++ (i, bad) :: rest')) = .error (.malformedRecord i) := by
  have htb := takeParticles_bad ps nlps i bad rest' P hsnd hbad hlen
  cases w with
  | true =>
    cases fuel with
    | zero => omega
    | succ f =>
      simp only [if_pos rfl, List.singleton_append, scanEvents,
        parseWeight_num, List.append_eq, List.nil_append, htb]
  | false =>
    simp only [Bool.false_eq_true, if_neg, List.nil_append]
    cases hnl : nlps with
    | nil =>
      subst hnl
      simp only [List.map_nil] at hsnd
      cases fuel with
      | zero => omega
      | succ f =>
        simp only [List.nil_append] at htb
        simp only [List.nil_append, scanEvents, htb]
    | cons x nlps' =>
      obtain ⟨jx, lx⟩ := x
      cases fuel with
      | zero => omega
      | succ f =>
        rw [hnl] at htb
        simp only [List.cons_append, List.append_eq] at htb ⊢
        simp only [scanEvents, htb]

theorem scanEvents_hits_eof (w : Bool) (P : Nat) (j : Nat)
    (nlps : List (Nat × Line)) (ps : List FourMomentum) (q : ℚ) (fuel : Nat)
    (hsnd : nlps.map Prod.snd = ps.map serLine)
    (hlen : ps.length < P)
    (hne : w = false → ps ≠ [])
    (hfuel : 0 < fuel) :
    scanEvents w P fuel
      ((if w then [(j, [Token.num q])] else []) ++ nlps) =
      .error .truncatedFile := by
  have hlenps := ser_lines_length nlps ps hsnd
  have htr := takeParticles_trunc nlps P (mem_ser_lines nlps ps hsnd)
    (by omega)
  cases w with
  | true =>
    cases fuel with
    | zero => omega
    | succ f =>
      simp only [if_pos rfl, List.singleton_append, scanEvents,
        parseWeight_num, List.append_eq, List.nil_append, htr]
  | false =>
    have hps : ps ≠ [] := hne rfl
    simp only [Bool.false_eq_true, if_neg, List.nil_append]
    cases hnl : nlps with
    | nil =>
      subst hnl
      simp only [List.map_nil] at hsnd
      exact absurd (by simpa using hsnd.symm) hps
    | cons x nlps' =>
      obtain ⟨jx, lx⟩ := x
      cases fuel with
      | zero => omega
      | succ f =>
        rw [hnl] at htr
        simp only [scanEvents, htr]

theorem read_ascii_tail_error (particles : List String) (w : Bool)
    (evs : List Event) (tail : List Line) (e : ParseError)
    (hp : particles ≠ [])
    (hwf : WFevs w particles.length evs)
    (herr : scanEvents w particles.length
        (numberLines (evs.map serializeEvent).flatten.length tail).length
        (numberLines (evs.map serializeEvent).flatten.length tail) =
        .error e) :
    read_ascii ((evs.map serializeEvent).flatten ++ tail) particles (some w) =
      .error e := by
  have hP : 0 < particles.length := List.length_pos.mpr hp
  have hpe : ¬particles.isEmpty = true := by simpa [List.isEmpty_iff] using hp
  have hnonblank := mem_flatten_ser_ne_nil evs
  have hn1snd : (numberLines 0 (evs.map serializeEvent).flatten).map Prod.snd =
      (evs.map serializeEvent).flatten :=
    numberLines_snd _ 0 hnonblank
  have hsplit := numberLines_append (evs.map serializeEvent).flatten tail 0
  simp only [Nat.zero_add] at hsplit
  have happ := scanEvents_ser_append w particles.length hP evs
    (numberLines 0 (evs.map serializeEvent).flatten)
    (numberLines (evs.map serializeEvent).flatten.length tail)
    ((numberLines 0 (evs.map serializeEvent).flatten).length +
      (numberLines (evs.map serializeEvent).flatten.length tail).length)
    hwf hn1snd (by simp)
  unfold read_ascii
  rw [if_neg hpe]
  have hparse : parse_events w particles.length
      (numberLines 0 ((evs.map serializeEvent).flatten ++ tail)) =
      .error e := by
    unfold parse_events
    rw [hsplit, List.length_append, happ, herr]
    rfl
  simp only [resolveWeighted, hparse]

theorem serLines_ne_nil (ps : List FourMomentum) :
    ∀ l ∈ ps.map serLine, l ≠ [] := by
  intro l hl
  obtain ⟨p, _, hp⟩ := List.mem_map.mp hl
  subst hp
  exact serLine_ne_nil p

theorem numberLines_length_nonblank (lines : List Line) (n : Nat)
    (h : ∀ l ∈ lines, l ≠ []) :
    (numberLines n lines).length = lines.length := by
  have h2 := congrArg List.length (numberLines_snd lines n h)
  simpa using h2

theorem numberLines_head_split (a : Nat) (w : Bool) (q : ℚ) (X : List Line) :
    numberLines a ((if w then [[Token.num q]] else []) ++ X) =
      (if w then [(a, [Token.num q])] else []) ++
        numberLines (a + (if w then 1 else 0)) X := by
  cases w <;> simp [numberLines_append, numberLines]

/-- C4: a wrong-token-count particle line (the first structural problem of the
input) makes the parse fail with a malformed-record error naming that line's
0-based position. -/
theorem c4_malformed_record (particles : List String) (w : Bool)
    (evs : List Event) (q : ℚ) (ps : List FourMomentum)
    (bad : Line) (rest : List Line)
    (hp : particles ≠ [])
    (hwf : WFevs w particles.length evs)
    (hlen : ps.length < particles.length)
    (hbad : bad.length ≠ 4) (hnb : bad ≠ []) :
    read_ascii
      ((evs.map serializeEvent).flatten ++
        ((if w then [[Token.num q]] else []) ++ (ps.map serLine ++ bad :: rest)))
      particles (some w) =
      .error (.malformedRecord
        ((evs.map serializeEvent).flatten.length +
          (if w then 1 else 0) + ps.length)) := by
  apply read_ascii_tail_error particles w evs _ _ hp hwf
  rw [numberLines_head_split]
  rw [numberLines_append]
  have hbadcons : numberLines
      ((evs.map serializeEvent).flatten.length + (if w then 1 else 0) +
        (ps.map serLine).length) (bad :: rest) =
      ((evs.map serializeEvent).flatten.length + (if w then 1 else 0) +
        ps.length, bad) ::
        numberLines ((evs.map serializeEvent).flatten.length +
          (if w then 1 else 0) + ps.length + 1) rest := by
    have hne : ¬bad.isEmpty = true := by simpa [List.isEmpty_iff] using hnb
    simp [numberLines, hne]
  rw [hbadcons]
  apply scanEvents_hits_bad w particles.length _ _ ps q _ bad _ _
    (numberLines_snd (ps.map serLine) _ (serLines_ne_nil ps))
    hlen hbad
  simp only [List.length_append, List.length_cons]
  cases w <;> simp

/-- C5: parsing is atomic: a successful parse yields only complete events
(never a partial table), and input that ends mid-event fails with a
truncated-file error. -/
theorem c5_atomicity :
    (∀ (lines : List Line) (particles : List String) (wopt : Option Bool)
        (t : Table), read_ascii lines particles wopt = .ok t →
        ∀ ev ∈ t.events, ev.particles.length = particles.length ∧
          ev.weight.isSome = t.weighted) ∧
    (∀ (particles : List String) (w : Bool) (evs : List Event) (q : ℚ)
        (ps : List FourMomentum), particles ≠ [] →
        WFevs w particles.length evs → ps.length < particles.length →
        (w = false → ps ≠ []) →
        read_ascii ((evs.map serializeEvent).flatten ++
            ((if w then [[Token.num q]] else []) ++ ps.map serLine))
          particles (some w) = .error .truncatedFile) := by
  constructor
  · intro lines particles wopt t hok ev hev
    obtain ⟨hp, hnames, hw, hpe⟩ := read_ascii_ok lines particles wopt t hok
    unfold parse_events at hpe
    have h := scanEvents_wf t.weighted particles.length _ _ _ hpe ev hev
    exact ⟨h.2, h.1⟩
  · intro particles w evs q ps hp hwf hlen hne
    apply read_ascii_tail_error particles w evs _ _ hp hwf
    rw [numberLines_head_split]
    apply scanEvents_hits_eof w particles.length _ _ ps q _
      (numberLines_snd (ps.map serLine) _ (serLines_ne_nil ps))
      hlen hne
    cases hwb : w with
    | true =>
      subst hwb
      simp
    | false =>
      subst hwb
      have hps := hne rfl
      have hpos : 0 < ps.length := List.length_pos.mpr hps
      simp only [if_neg Bool.false_ne_true, List.nil_append]
      rw [numberLines_length_nonblank _ _ (serLines_ne_nil ps), List.length_map]
      exact hpos

/-- C1: serializing the table obtained from a successful parse and re-parsing
the output yields a table with identical particle names, identical event
count, and identical numeric values (exact in this rational model). -/
theorem c1_round_trip (lines : List Line) (particles : List String)
    (wopt : Option Bool) (t : Table)
    (hok : read_ascii lines particles wopt = .ok t) :
    ∃ t', read_ascii (write_ascii t) particles none = .ok t' ∧
      t'.particle_names = t.particle_names ∧
      t'.events.length = t.events.length ∧
      t'.events = t.events := by
  obtain ⟨hp, hnames, hw, hpe⟩ := read_ascii_ok lines particles wopt t hok
  unfold parse_events at hpe
  have hwf : WFevs t.weighted t.particle_names.length t.events := by
    rw [hnames]
    exact fun ev hev =>
      scanEvents_wf t.weighted particles.length _ _ _ hpe ev hev
  obtain ⟨w', hre, _⟩ := read_ascii_write t (by rw [hnames]; exact hp) hwf
  rw [hnames] at hre
  exact ⟨⟨particles, w', t.events⟩, hre, hnames.symm, rfl, rfl⟩

theorem c1_witness :
    ∃ t', read_ascii
        (write_ascii ⟨["a"], true, [⟨some 1, [⟨2, 3, 4, 5⟩]⟩]⟩) ["a"] none =
        .ok t' ∧
      t'.particle_names = (⟨["a"], true, [⟨some 1, [⟨2, 3, 4, 5⟩]⟩]⟩ :
        Table).particle_names ∧
      t'.events.length = (⟨["a"], true, [⟨some 1, [⟨2, 3, 4, 5⟩]⟩]⟩ :
        Table).events.length ∧
      t'.events = (⟨["a"], true, [⟨some 1, [⟨2, 3, 4, 5⟩]⟩]⟩ : Table).events :=
  c1_round_trip
    [[Token.num 1], [Token.num 2, Token.num 3, Token.num 4, Token.num 5]]
    ["a"] none ⟨["a"], true, [⟨some 1, [⟨2, 3, 4, 5⟩]⟩]⟩ rfl

/-- C2: every row of a successfully parsed table has exactly
4 times the number of caller-supplied particle names numeric fields, plus one
extra field exactly when the file is weighted. -/
theorem c2_schema_invariant (lines : List Line) (particles : List String)
    (wopt : Option Bool) (t : Table)
    (hok : read_ascii lines particles wopt = .ok t) :
    ∀ ev ∈ t.events,
      ev.fieldCount = 4 * particles.length + (if t.weighted then 1 else 0) ∧
      (ev.weight.isSome = true ↔ t.weighted = true) := by
  obtain ⟨hp, hnames, hw, hpe⟩ := read_ascii_ok lines particles wopt t hok
  unfold parse_events at hpe
  intro ev hev
  have h := scanEvents_wf t.weighted particles.length _ _ _ hpe ev hev
  refine ⟨?_, by rw [h.1]⟩
  unfold Event.fieldCount
  rw [h.1, h.2]
  cases t.weighted
  · simp
  · simp [Nat.add_comm]

theorem c2_witness :
    Event.fieldCount ⟨some 1, [⟨2, 3, 4, 5⟩]⟩ =
      4 * (["a"] : List String).length + (if true then 1 else 0) ∧
    ((some (1 : ℚ)).isSome = true ↔ (true : Bool) = true) :=
  c2_schema_invariant
    [[Token.num 1], [Token.num 2, Token.num 3, Token.num 4, Token.num 5]]
    ["a"] none ⟨["a"], true, [⟨some 1, [⟨2, 3, 4, 5⟩]⟩]⟩ rfl
    ⟨some 1, [⟨2, 3, 4, 5⟩]⟩ (List.mem_singleton.mpr rfl)

/-- C3: with no explicit weighted flag, a first non-blank line of exactly one
numeric token makes the file weighted and that token the first event's
weight; a first non-blank line of four tokens makes it unweighted. -/
theorem c3_auto_detect (lines : List Line) (particles : List String)
    (t : Table) (hok : read_ascii lines particles none = .ok t) :
    (∀ i q rest, numberLines 0 lines = (i, [Token.num q]) :: rest →
        t.weighted = true ∧ ∃ ps evs', t.events = ⟨some q, ps⟩ :: evs') ∧
    (∀ i l rest, numberLines 0 lines = (i, l) :: rest → l.length = 4 →
        t.weighted = false) := by
  obtain ⟨hp, hnames, hw, hpe⟩ := read_ascii_ok lines particles none t hok
  have hhw : has_weights lines = .ok t.weighted := hw
  constructor
  · intro i q rest hnl
    have hdet : has_weights lines = .ok true := by
      simp [has_weights, hnl]
    have hwt : t.weighted = true := Except.ok.inj (hhw.symm.trans hdet)
    refine ⟨hwt, ?_⟩
    rw [hwt, hnl] at hpe
    unfold parse_events at hpe
    simp only [List.length_cons, scanEvents, parseWeight_num] at hpe
    cases htp : takeParticles particles.length rest with
    | error e => simp [htp] at hpe
    | ok pr =>
      obtain ⟨fms, rem⟩ := pr
      cases hsc : scanEvents true particles.length rest.length rem with
      | error e => simp [htp, hsc] at hpe
      | ok evs' =>
        simp only [htp, hsc, Except.ok.injEq] at hpe
        exact ⟨fms, evs', hpe.symm⟩
  · intro i l rest hnl hl4
    have hdet : has_weights lines = .ok false := by
      have h1 : l.length ≠ 1 := by omega
      simp [has_weights, hnl, h1, hl4]
    exact Except.ok.inj (hhw.symm.trans hdet)

theorem c3_witness :
    ((⟨["a"], true, [⟨some 1, [⟨2, 3, 4, 5⟩]⟩]⟩ : Table).weighted = true ∧
      ∃ ps evs', (⟨["a"], true, [⟨some 1, [⟨2, 3, 4, 5⟩]⟩]⟩ : Table).events =
        ⟨some 1, ps⟩ :: evs') ∧
    (⟨["a"], false, [⟨none, [⟨2, 3, 4, 5⟩]⟩]⟩ : Table).weighted = false :=
  ⟨(c3_auto_detect
      [[Token.num 1], [Token.num 2, Token.num 3, Token.num 4, Token.num 5]]
      ["a"] ⟨["a"], true, [⟨some 1, [⟨2, 3, 4, 5⟩]⟩]⟩ rfl).1 0 1
      [(1, [Token.num 2, Token.num 3, Token.num 4, Token.num 5])] rfl,
    (c3_auto_detect [[Token.num 2, Token.num 3, Token.num 4, Token.num 5]]
      ["a"] ⟨["a"], false, [⟨none, [⟨2, 3, 4, 5⟩]⟩]⟩ rfl).2 0
      [Token.num 2, Token.num 3, Token.num 4, Token.num 5] [] rfl rfl⟩

theorem c4_witness :
    read_ascii [[Token.num 1, Token.num 2, Token.num 3]] ["a"] (some false) =
      .error (.malformedRecord 0) := by
  have h := c4_malformed_record ["a"] false [] 0 []
    [Token.num 1, Token.num 2, Token.num 3] [] (by simp)
    (fun ev hev => absurd hev (List.not_mem_nil ev)) (by simp) (by simp)
    (by simp)
  simpa using h

theorem c5_witness :
    read_ascii [[Token.num 1, Token.num 2, Token.num 3, Token.num 4]]
      ["a", "b"] (some false) = .error .truncatedFile := by
  have h := c5_atomicity.2 ["a", "b"] false [] 0 [⟨1, 2, 3, 4⟩] (by simp)
    (fun ev hev => absurd hev (List.not_mem_nil ev)) (by simp)
    (fun _ => by simp)
  simpa [serLine] using h

/-- C6: invariant mass of every row of a 4-vector selection is
sqrt (max 0 (E^2 - px^2 - py^2 - pz^2)); in particular the unphysical row
(E, px, py, pz) = (1, 2, 0, 0) gives mass 0 instead of an error. -/
theorem c6_mass_clamped :
    (∀ sel : List FourMomentum, invariant_mass_column sel =
      sel.map (fun p => Real.sqrt
        (((max 0 (p.e ^ 2 - p.px ^ 2 - p.py ^ 2 - p.pz ^ 2) : ℚ) : ℝ)))) ∧
    invariant_mass ⟨1, 2, 0, 0⟩ = 0 := by
  constructor
  · intro sel
    rfl
  · unfold invariant_mass
    have h : mass_sq ⟨1, 2, 0, 0⟩ = 0 := by
      unfold mass_sq
      norm_num
    rw [h]
    simp

theorem findIndex_mem (name : String) (l : List String) (h : name ∈ l) :
    ∃ j, findIndex name l = some j := by
  induction l with
  | nil => simp at h
  | cons n rest ih =>
    by_cases hn : n = name
    · exact ⟨0, by simp [findIndex, hn]⟩
    · have hmem : name ∈ rest := by
        rcases List.mem_cons.mp h with h1 | h1
        · exact absurd h1.symm hn
        · exact h1
      obtain ⟨j, hj⟩ := ih hmem
      exact ⟨j + 1, by simp [findIndex, hn, hj]⟩

/-- C7 (amended): exporting a filtered row subset re-parses to the same
particle names and schema with the subset's row count, provided the subset is
nonempty or the table is unweighted (an empty weighted subset serializes to
an empty file, which auto-detects as unweighted). -/
theorem c7_filter_roundtrip (lines : List Line) (particles : List String)
    (wopt : Option Bool) (t : Table) (pred : Event → Bool)
    (hok : read_ascii lines particles wopt = .ok t)
    (hne : t.events.filter pred ≠ [] ∨ t.weighted = false) :
    read_ascii (write_ascii (filterEvents t pred)) particles none =
      .ok ⟨particles, t.weighted, t.events.filter pred⟩ := by
  obtain ⟨hp, hnames, hw, hpe⟩ := read_ascii_ok lines particles wopt t hok
  unfold parse_events at hpe
  have hwf0 := scanEvents_wf t.weighted particles.length _ _ _ hpe
  have hwf : WFevs (filterEvents t pred).weighted
      (filterEvents t pred).particle_names.length
      (filterEvents t pred).events := by
    intro ev hev
    rw [filterEvents] at hev
    simp only at hev
    have := hwf0 ev (List.mem_of_mem_filter hev)
    rw [filterEvents]
    simp only
    rw [hnames]
    exact this
  obtain ⟨w', hre, himp⟩ := read_ascii_write (filterEvents t pred)
    (by rw [filterEvents]; simp only; rw [hnames]; exact hp) hwf
  have hw' : w' = t.weighted := himp (by
    rw [filterEvents]
    simp only
    exact hne)
  rw [hw'] at hre
  rw [filterEvents] at hre
  simp only at hre
  rw [hnames] at hre
  exact hre

theorem c7_witness :
    read_ascii
      (write_ascii (filterEvents ⟨["a"], false, [⟨none, [⟨2, 3, 4, 5⟩]⟩]⟩
        (fun _ => false))) ["a"] none = .ok ⟨["a"], false, []⟩ :=
  c7_filter_roundtrip [[Token.num 2, Token.num 3, Token.num 4, Token.num 5]]
    ["a"] none ⟨["a"], false, [⟨none, [⟨2, 3, 4, 5⟩]⟩]⟩ (fun _ => false) rfl
    (Or.inr rfl)

theorem c7_counterexample :
    read_ascii [[Token.num 1],
        [Token.num 2, Token.num 3, Token.num 4, Token.num 5]] ["a"] none =
      .ok ⟨["a"], true, [⟨some 1, [⟨2, 3, 4, 5⟩]⟩]⟩ ∧
    Table.has_weight_column ⟨["a"], true, [⟨some 1, [⟨2, 3, 4, 5⟩]⟩]⟩ = true ∧
    read_ascii (write_ascii (filterEvents
        ⟨["a"], true, [⟨some 1, [⟨2, 3, 4, 5⟩]⟩]⟩ (fun _ => false)))
      ["a"] none = .ok ⟨["a"], false, []⟩ ∧
    Table.has_weight_column ⟨["a"], false, []⟩ = false :=
  ⟨rfl, rfl, rfl, rfl⟩

/-- The spec's two-event sample file, with the momentum tuples of the
pi+, D0, D- decay products of two weighted events. -/
def sampleLines : List Line :=
  [[Token.num 0.99407],
   [Token.num (-0.00357645), Token.num 0.0962561, Token.num 0.0181079,
    Token.num 0.170545],
   [Token.num 0.224019, Token.num 0.623156, Token.num 0.215051,
    Token.num 1.99057],
   [Token.num (-0.174404), Token.num (-0.719412), Token.num (-0.233159),
    Token.num 2.0243],
   [Token.num 0.990748],
   [Token.num (-0.0328198), Token.num 0.0524406, Token.num 0.0310079,
    Token.num 0.155783],
   [Token.num (-0.619592), Token.num 0.141315, Token.num 0.32135,
    Token.num 1.99619],
   [Token.num 0.698477, Token.num (-0.193756), Token.num (-0.352357),
    Token.num 2.03593]]

/-- The table the sample file parses to. -/
def sampleTable : Table :=
  ⟨["pi+", "D0", "D-"], true,
    [⟨some 0.99407,
      [⟨-0.00357645, 0.0962561, 0.0181079, 0.170545⟩,
       ⟨0.224019, 0.623156, 0.215051, 1.99057⟩,
       ⟨-0.174404, -0.719412, -0.233159, 2.0243⟩]⟩,
     ⟨some 0.990748,
      [⟨-0.0328198, 0.0524406, 0.0310079, 0.155783⟩,
       ⟨-0.619592, 0.141315, 0.32135, 1.99619⟩,
       ⟨0.698477, -0.193756, -0.352357, 2.03593⟩]⟩]⟩

/-- C8: parsing the spec's two-event sample with particles pi+, D0, D- yields
a weighted table whose first event's weight is 0.99407 and whose D0 column's
first record is (E, px, py, pz) = (0.224019, 0.623156, 0.215051, 1.99057). -/
theorem c8_end_to_end :
    read_ascii sampleLines ["pi+", "D0", "D-"] none = .ok sampleTable ∧
    sampleTable.has_weight_column = true ∧
    sampleTable.events.length = 2 ∧
    sampleTable.events.head?.map Event.weight = some (some 0.99407) ∧
    select_particle sampleTable "D0" =
      .ok [⟨0.224019, 0.623156, 0.215051, 1.99057⟩,
           ⟨-0.619592, 0.141315, 0.32135, 1.99619⟩] :=
  ⟨rfl, rfl, rfl, rfl, rfl⟩

/-- C9: the mass accessor leaves the table unchanged, yields identical
results when computed twice from the same table, and succeeds for every
particle of the table. -/
theorem c9_mass_pure (lines : List Line) (particles : List String)
    (wopt : Option Bool) (t : Table) (name : String)
    (hok : read_ascii lines particles wopt = .ok t)
    (hmem : name ∈ t.particle_names) :
    (mass_column_st t name).2 = t ∧
    (mass_column_st t name).1 =
      (mass_column_st ((mass_column_st t name).2) name).1 ∧
    ∃ col, (mass_column_st t name).1 = .ok col := by
  refine ⟨rfl, rfl, ?_⟩
  obtain ⟨j, hj⟩ := findIndex_mem name t.particle_names hmem
  simp only [mass_column_st, select_particle, hj]
  exact ⟨_, rfl⟩

theorem c9_witness :
    (mass_column_st ⟨["a"], true, [⟨some 1, [⟨2, 3, 4, 5⟩]⟩]⟩ "a").2 =
      ⟨["a"], true, [⟨some 1, [⟨2, 3, 4, 5⟩]⟩]⟩ ∧
    (mass_column_st ⟨["a"], true, [⟨some 1, [⟨2, 3, 4, 5⟩]⟩]⟩ "a").1 =
      (mass_column_st
        (mass_column_st ⟨["a"], true, [⟨some 1, [⟨2, 3, 4, 5⟩]⟩]⟩ "a").2
        "a").1 ∧
    ∃ col, (mass_column_st ⟨["a"], true, [⟨some 1, [⟨2, 3, 4, 5⟩]⟩]⟩ "a").1 =
      .ok col :=
  c9_mass_pure
    [[Token.num 1], [Token.num 2, Token.num 3, Token.num 4, Token.num 5]]
    ["a"] none ⟨["a"], true, [⟨some 1, [⟨2, 3, 4, 5⟩]⟩]⟩ "a" rfl
    (List.mem_singleton.mpr rfl)

/-- C10: a weighted parse exposes the per-event weights as the top-level
column named "weight", one scalar per row, and the column survives row
filtering under the same name. -/
theorem c10_weight_column (lines : List Line) (particles : List String)
    (wopt : Option Bool) (t : Table)
    (hok : read_ascii lines particles wopt = .ok t)
    (hwt : t.weighted = true) :
    getColumn t "weight" =
      .ok (.scalars (t.events.map (fun ev => ev.weight.getD 0))) ∧
    (t.events.map (fun ev => ev.weight.getD 0)).length = t.events.length ∧
    (∀ ev ∈ t.events, ∃ q, ev.weight = some q) ∧
    (∀ pred : Event → Bool,
      getColumn (filterEvents t pred) "weight" =
        .ok (.scalars ((t.events.filter pred).map
          (fun ev => ev.weight.getD 0)))) := by
  obtain ⟨hp, hnames, hw, hpe⟩ := read_ascii_ok lines particles wopt t hok
  unfold parse_events at hpe
  refine ⟨by simp [getColumn, hwt], by simp, ?_, ?_⟩
  · intro ev hev
    have h := scanEvents_wf t.weighted particles.length _ _ _ hpe ev hev
    exact Option.isSome_iff_exists.mp (hwt ▸ h.1)
  · intro pred
    simp [getColumn, filterEvents, hwt]

theorem c10_witness :
    getColumn ⟨["a"], true, [⟨some 1, [⟨2, 3, 4, 5⟩]⟩]⟩ "weight" =
      .ok (.scalars [1]) ∧
    ([(1 : ℚ)]).length =
      (⟨["a"], true, [⟨some 1, [⟨2, 3, 4, 5⟩]⟩]⟩ : Table).events.length ∧
    (∀ ev ∈ (⟨["a"], true, [⟨some 1, [⟨2, 3, 4, 5⟩]⟩]⟩ : Table).events,
      ∃ q, ev.weight = some q) ∧
    (∀ pred : Event → Bool,
      getColumn (filterEvents ⟨["a"], true, [⟨some 1, [⟨2, 3, 4, 5⟩]⟩]⟩ pred)
          "weight" =
        .ok (.scalars
          (((⟨["a"], true, [⟨some 1, [⟨2, 3, 4, 5⟩]⟩]⟩ : Table).events.filter
            pred).map (fun ev => ev.weight.getD 0)))) :=
  c10_weight_column
    [[Token.num 1], [Token.num 2, Token.num 3, Token.num 4, Token.num 5]]
    ["a"] none ⟨["a"], true, [⟨some 1, [⟨2, 3, 4, 5⟩]⟩]⟩ rfl rfl
